import Mathlib

/-!
Verification of the animated-image playback controller declared in
src/include/android/SkAnimatedImage.h.

The repository snapshot contains only the class declaration.  The inline
members (isRunning, isFinished, kNotRunning) are embedded directly from the
source; the bodies of start, stop, reset, update, setRepetitionCount,
computeNextFrame and the construction path are not present under src/, so
they are modelled from the specification (spec.md sections 3, 4 and 7), as
marked on each definition.

Times are modelled as integer milliseconds, pixel buffers as lists of
naturals (deep copies are value copies), and the external frame decoder as
a function from a frame index to an optional decoded frame.
-/

set_option autoImplicit false

namespace SkAnim

/-- Disposal methods of a frame, the closed enum consumed by the disposal
compositor (spec section 3; SkCodecAnimation::DisposalMethod in the header). -/
inductive DisposalMethod where
  | keep
  | restoreBackground
  | restorePrevious
deriving DecidableEq

/-- Frame: pixel buffer, frame index (-1 means uninitialized), disposal
method (header lines 107-114; spec section 3). -/
structure Frame where
  fBitmap : List Nat
  fIndex : Int
  fDisposalMethod : DisposalMethod
deriving DecidableEq

/-- Result of decoding one frame: pixels, the frame's disposal method and
its display duration in milliseconds (spec section 6, decodeFrame). -/
structure DecodedFrame where
  pixels : List Nat
  disposal : DisposalMethod
  durationMs : Int
deriving DecidableEq

/-- Modelled from the spec: the external frame-decoder collaborator
(spec section 6).  decodeFrame returns none on a decode error. -/
structure Decoder where
  frameCount : Nat
  defaultRepetitionCount : Int
  decodeFrame : Nat → Option DecodedFrame

/-- Frame store: the two exclusively owned frame slots, active and restore
(spec sections 3 and 4.1; fields fActiveFrame / fRestoreFrame of the header). -/
structure FrameStore where
  active : Frame
  restore : Frame
deriving DecidableEq

/-- Modelled from the spec: retiring the active frame applies its disposal
method (spec section 4.2).  For RESTORE_PREVIOUS the snapshot in the restore
slot is copied back into active; KEEP and RESTORE_BACKGROUND leave the store
unchanged, since the decoder already produces fully composited frames. -/
def retireActive (s : FrameStore) : FrameStore :=
  match s.active.fDisposalMethod with
  | .restorePrevious => { s with active := s.restore }
  | _ => s

/-- The base frame onto which the next decoded frame is composited: the
active frame after the outgoing frame's disposal step has been applied. -/
def compositeBase (s : FrameStore) : Frame :=
  (retireActive s).active

/-- Modelled from the spec: advancing the frame store to a newly decoded
frame nf (spec section 4.2).  The outgoing frame is retired by its disposal
method; if nf itself uses RESTORE_PREVIOUS, the pre-nf active frame is
snapshotted into the restore slot before active is overwritten with nf. -/
def applyNewFrame (s : FrameStore) (nf : Frame) : FrameStore :=
  let s1 := retireActive s
  let s2 := if nf.fDisposalMethod = .restorePrevious then { s1 with restore := s1.active } else s1
  { s2 with active := nf }

/-- Playback and sequence state of the controller (header lines 125-132),
plus a ghost log of the frame indices requested from the external decoder,
in order, which records the decode events of spec section 4.5. -/
structure AnimState where
  fFinished : Bool
  fRunning : Bool
  fNowMS : Int
  fRemainingMS : Int
  fActiveFrame : Frame
  fRestoreFrame : Frame
  fRepetitionCount : Int
  fRepetitionsCompleted : Int
  decodedLog : List Nat
deriving DecidableEq

/-- Sentinel returned by update if the animation is not running
(header line 80, value -2.0). -/
def kNotRunning : Int := -2

/-- Sentinel repetition count meaning infinite repetition
(SkCodec::kRepetitionCountInfinite, referenced at header line 97). -/
def kRepetitionCountInfinite : Int := -1

/-- Whether the animation is active (header line 67, embedded from source):
fRunning && !fFinished. -/
def isRunning (s : AnimState) : Bool :=
  s.fRunning && !s.fFinished

/-- Whether the animation completed (header line 75, embedded from source):
fFinished. -/
def isFinished (s : AnimState) : Bool :=
  s.fFinished

/-- Modelled from the spec: the frame sequencer (spec section 4.3; the body
of computeNextFrame is absent from src/).  Pure function of the current
index and the frame count: next index is (current + 1) mod frameCount, and
the wrapped flag is true exactly when that result is 0. -/
def nextIndex (current frameCount : Nat) : Nat × Bool :=
  let idx := (current + 1) % frameCount
  (idx, idx == 0)

/-- Modelled from the spec: a declared duration of 0 or negative is treated
as one display tick (1 ms) before advancing, to avoid infinite stalls
(spec section 4.4). -/
def normDuration (d : Int) : Int :=
  max d 1

/-- Modelled from the spec: construction (spec section 3, lifecycle; Make in
the header).  Decodes the first frame eagerly; fails (returns none) when
that decode fails.  The animation does not run until start is called. -/
def mkAnimState (d : Decoder) : Option AnimState :=
  (d.decodeFrame 0).map fun df =>
    { fFinished := false
      fRunning := false
      fNowMS := 0
      fRemainingMS := normDuration df.durationMs
      fActiveFrame := ⟨df.pixels, 0, df.disposal⟩
      fRestoreFrame := ⟨[], -1, .keep⟩
      fRepetitionCount := d.defaultRepetitionCount
      fRepetitionsCompleted := 0
      decodedLog := [0] }

/-- Modelled from the spec: start or resume the animation (spec section 4.5).
No-op if already finished; the caller must reset first. -/
def start (s : AnimState) : AnimState :=
  if s.fFinished then s else { s with fRunning := true }

/-- Modelled from the spec: stop the animation (spec section 4.5).
Time updates become no-ops while stopped. -/
def stop (s : AnimState) : AnimState :=
  { s with fRunning := false }

/-- Modelled from the spec: change the repetition count (spec section 4.5);
does not retroactively affect repetitions-completed. -/
def setRepetitionCount (s : AnimState) (n : Int) : AnimState :=
  { s with fRepetitionCount := n }

/-- Modelled from the spec: reset the animation to the beginning
(spec sections 3 and 4.5).  Any state goes to STOPPED with time 0,
repetitions-completed 0, sequence index 0 and the first frame redecoded;
if redecoding the first frame fails the controller is left FINISHED. -/
def reset (d : Decoder) (s : AnimState) : AnimState :=
  match d.decodeFrame 0 with
  | some df =>
      { s with fFinished := false
               fRunning := false
               fNowMS := 0
               fRemainingMS := normDuration df.durationMs
               fActiveFrame := ⟨df.pixels, 0, df.disposal⟩
               fRepetitionsCompleted := 0
               decodedLog := s.decodedLog ++ [0] }
  | none => { s with fFinished := true }

/-- Modelled from the spec: one frame-boundary crossing (spec section 4.5).
Asks the sequencer for the next index; on a wrap increments
repetitions-completed and, if the configured repetition count is reached and
not infinite, transitions to FINISHED without touching the displayed frame
(the clamp of spec section 9).  Otherwise requests the next frame from the
decoder: a failed decode transitions to FINISHED leaving the active frame
untouched; a successful decode applies the disposal compositor and
replenishes the remaining time with the new frame's duration. -/
def crossBoundary (d : Decoder) (s : AnimState) : AnimState :=
  let current := s.fActiveFrame.fIndex.toNat
  let next := (nextIndex current d.frameCount).1
  let wrapped := (nextIndex current d.frameCount).2
  let reps := if wrapped = true then s.fRepetitionsCompleted + 1 else s.fRepetitionsCompleted
  if wrapped = true ∧ s.fRepetitionCount ≠ kRepetitionCountInfinite ∧ s.fRepetitionCount ≤ reps then
    { s with fRepetitionsCompleted := reps, fFinished := true }
  else
    match d.decodeFrame next with
    | none => { s with fRepetitionsCompleted := reps, fFinished := true }
    | some df =>
        let store := applyNewFrame ⟨s.fActiveFrame, s.fRestoreFrame⟩ ⟨df.pixels, (next : Int), df.disposal⟩
        { s with fRepetitionsCompleted := reps
                 fActiveFrame := store.active
                 fRestoreFrame := store.restore
                 fRemainingMS := s.fRemainingMS + normDuration df.durationMs
                 decodedLog := s.decodedLog ++ [next] }

/-- Modelled from the spec: the playback-clock loop of update
(spec section 4.4), written with an explicit fuel parameter so that it is
structurally recursive.  While the machine is unfinished and the remaining
time budget is not positive, one boundary crossing is performed per step. -/
def advanceLoopFuel (d : Decoder) : Nat → AnimState → AnimState
  | 0, s => s
  | fuel + 1, s =>
    if s.fFinished then s
    else if 0 < s.fRemainingMS then s
    else advanceLoopFuel d fuel (crossBoundary d s)

/-- The boundary-crossing loop with its fuel instantiated to
(1 - fRemainingMS).toNat + 1, which is provably never exhausted: every
non-finishing crossing replenishes the budget by at least 1 ms
(normDuration), and a finishing crossing ends the loop. -/
def advanceLoop (d : Decoder) (s : AnimState) : AnimState :=
  advanceLoopFuel d ((1 - s.fRemainingMS).toNat + 1) s

/-- Modelled from the spec: update the current time (spec section 4.5).
Only has effect while running and unfinished; otherwise returns the
kNotRunning sentinel and leaves the state unchanged.  While running it
computes the delta from the previous timestamp, charges it against the
remaining budget, runs the boundary-crossing loop, and returns the time
until the next boundary, or kNotRunning if the call left the machine
FINISHED. -/
def update (d : Decoder) (s : AnimState) (msecs : Int) : AnimState × Int :=
  if !s.fRunning || s.fFinished then (s, kNotRunning)
  else
    let s1 := { s with fNowMS := msecs, fRemainingMS := s.fRemainingMS - (msecs - s.fNowMS) }
    let s2 := advanceLoop d s1
    if s2.fFinished then (s2, kNotRunning) else (s2, s2.fRemainingMS)

/-- Driving the controller with a list of absolute timestamps, in order. -/
def runUpdates (d : Decoder) (s : AnimState) (ts : List Int) : AnimState :=
  ts.foldl (fun s t => (update d s t).1) s

/-- Normalized duration of frame i as the playback clock uses it; 1 for an
undecodable frame (a well-formed decoder never hits that branch). -/
def dur (d : Decoder) (i : Nat) : Int :=
  match d.decodeFrame i with
  | some df => normDuration df.durationMs
  | none => 1

/-- Cumulative duration of the first k frames of the playback, frames taken
cyclically: cyc d k = dur 0 + dur (1 % n) + ... + dur ((k-1) % n).  The
remaining budget after crossing k boundaries at absolute time t is
cyc d (k+1) - t, and cyc d n is one full loop duration. -/
def cyc (d : Decoder) : Nat → Int
  | 0 => 0
  | k + 1 => cyc d k + dur d (k % d.frameCount)

/-- Whether frame i decodes successfully with a positive duration. -/
def decodeOK (d : Decoder) (i : Nat) : Bool :=
  match d.decodeFrame i with
  | some df => 1 ≤ df.durationMs
  | none => false

/-- Well-formed decoder: at least one frame, and every in-range frame
decodes successfully with a positive duration (spec sections 3 and 6). -/
def WFdec (d : Decoder) : Prop :=
  1 ≤ d.frameCount ∧ ∀ i, i < d.frameCount → decodeOK d i = true

/-- Loop invariant of the boundary-crossing loop: after k crossings of a
run whose repetition count is r, driven to absolute time t, the machine is
unfinished, the active index is k mod n, repetitions-completed is k / n,
and the remaining budget is cyc (k+1) - t; k stays below r * n. -/
def LInv (d : Decoder) (r : Nat) (t : Int) (k : Nat) (s : AnimState) : Prop :=
  s.fFinished = false ∧
  s.fActiveFrame.fIndex = ((k % d.frameCount : Nat) : Int) ∧
  s.fRepetitionsCompleted = ((k / d.frameCount : Nat) : Int) ∧
  s.fRepetitionCount = (r : Int) ∧
  s.fRemainingMS = cyc d (k + 1) - t ∧
  k < r * d.frameCount

/-- Invariant between update calls: the loop invariant plus the running
flag and the stored timestamp. -/
def UInv (d : Decoder) (r : Nat) (t : Int) (k : Nat) (s : AnimState) : Prop :=
  LInv d r t k s ∧ s.fRunning = true ∧ s.fNowMS = t

/-- The list of frame indices decoded by crossings k+1, ..., k+j, in order. -/
def crossSeq (d : Decoder) (k : Nat) : Nat → List Nat
  | 0 => []
  | j + 1 => ((k + 1) % d.frameCount) :: crossSeq d (k + 1) j

/-- Invariant of a run with the infinite repetition sentinel: unfinished,
count still infinite, and the active index in range. -/
def InfInv (d : Decoder) (s : AnimState) : Prop :=
  s.fFinished = false ∧ s.fRepetitionCount = kRepetitionCountInfinite ∧
  ∃ i : Nat, i < d.frameCount ∧ s.fActiveFrame.fIndex = (i : Int)

/-! Concrete instances used by the witnesses. -/

/-- A three-frame decoder with 100 ms frames, all decodes succeeding. -/
def demoDecoder : Decoder where
  frameCount := 3
  defaultRepetitionCount := 0
  decodeFrame := fun i => if i < 3 then some ⟨[i], .keep, 100⟩ else none

/-- The controller state produced by constructing from demoDecoder. -/
def demoS0 : AnimState where
  fFinished := false
  fRunning := false
  fNowMS := 0
  fRemainingMS := 100
  fActiveFrame := ⟨[0], 0, .keep⟩
  fRestoreFrame := ⟨[], -1, .keep⟩
  fRepetitionCount := 0
  fRepetitionsCompleted := 0
  decodedLog := [0]

/-- A three-frame decoder whose decode of frame index 2 fails. -/
def failDecoder : Decoder where
  frameCount := 3
  defaultRepetitionCount := 0
  decodeFrame := fun i => if i < 2 then some ⟨[i], .keep, 100⟩ else none

/-- A decoder whose frame 1 uses RESTORE_PREVIOUS disposal. -/
def rpDecoder : Decoder where
  frameCount := 3
  defaultRepetitionCount := 0
  decodeFrame := fun i =>
    if i = 0 then some ⟨[10], .keep, 100⟩
    else if i = 1 then some ⟨[11], .restorePrevious, 100⟩
    else if i = 2 then some ⟨[12], .keep, 100⟩
    else none

/-- A stopped, unfinished state displaying frame 0. -/
def stoppedState : AnimState where
  fFinished := false
  fRunning := false
  fNowMS := 0
  fRemainingMS := 100
  fActiveFrame := ⟨[0], 0, .keep⟩
  fRestoreFrame := ⟨[], -1, .keep⟩
  fRepetitionCount := 1
  fRepetitionsCompleted := 0
  decodedLog := [0]

/-- A finished state whose internal running flag is still set. -/
def finishedState : AnimState where
  fFinished := true
  fRunning := true
  fNowMS := 600
  fRemainingMS := 0
  fActiveFrame := ⟨[0], 0, .keep⟩
  fRestoreFrame := ⟨[], -1, .keep⟩
  fRepetitionCount := 2
  fRepetitionsCompleted := 2
  decodedLog := [0]

/-- A running state displaying frame 1 of a three-frame animation. -/
def runningState1 : AnimState where
  fFinished := false
  fRunning := true
  fNowMS := 100
  fRemainingMS := 100
  fActiveFrame := ⟨[1], 1, .keep⟩
  fRestoreFrame := ⟨[], -1, .keep⟩
  fRepetitionCount := 2
  fRepetitionsCompleted := 0
  decodedLog := [0, 1]

/-! Basic facts about the boundary-crossing loop. -/

/-- A finished state is a fixed point of the loop, for any fuel. -/
theorem advanceLoopFuel_of_finished (d : Decoder) (fuel : Nat) (s : AnimState)
    (h : s.fFinished = true) : advanceLoopFuel d fuel s = s := by
  cases fuel with
  | zero => rfl
  | succ n => simp [advanceLoopFuel, h]

/-- A state with positive remaining budget is a fixed point of the loop. -/
theorem advanceLoopFuel_of_pos (d : Decoder) (fuel : Nat) (s : AnimState)
    (h : 0 < s.fRemainingMS) : advanceLoopFuel d fuel s = s := by
  cases fuel with
  | zero => rfl
  | succ n => simp [advanceLoopFuel, h]

/-! Claim theorems. -/

/-- C3: when the animation is not running (stopped or never started, and in
particular after any number of stop calls), update advances no frame, leaves
the controller state unchanged, and returns the kNotRunning sentinel;
moreover stop always leaves the controller not running. -/
theorem update_when_not_running (d : Decoder) (s : AnimState) (t : Int)
    (h : isRunning s = false) :
    update d s t = (s, kNotRunning) ∧ isRunning (stop s) = false := by
  constructor
  · cases hr : s.fRunning with
    | false => simp [update, hr]
    | true =>
      cases hf : s.fFinished with
      | false => simp [isRunning, hr, hf] at h
      | true => simp [update, hr, hf]
  · simp [isRunning, stop]

/-- C3 witness: a concrete stopped state. -/
theorem update_when_not_running_witness :
    update demoDecoder stoppedState 50 = (stoppedState, kNotRunning) ∧
    isRunning (stop stoppedState) = false :=
  update_when_not_running demoDecoder stoppedState 50 (by decide)

/-- C5: the frame sequencer is the pure function current ↦ (current + 1) mod
frameCount, and its wrapped flag is true exactly when that result is 0.  It
takes no state: by its type it has no side effects and neither consults nor
mutates the repetition counters. -/
theorem nextIndex_spec (current n : Nat) (h : current < n) :
    (nextIndex current n).1 = (current + 1) % n ∧
    ((nextIndex current n).2 = true ↔ (nextIndex current n).1 = 0) := by
  simp [nextIndex]

/-- C5 witness: the last index of a three-frame sequence wraps to 0. -/
theorem nextIndex_spec_witness :
    (nextIndex 2 3).1 = (2 + 1) % 3 ∧
    ((nextIndex 2 3).2 = true ↔ (nextIndex 2 3).1 = 0) :=
  nextIndex_spec 2 3 (by decide)

/-- C7: reset fully reinitializes the playback state from any state:
time 0, repetitions-completed 0, not running, not finished, sequence index
0, and frame 0 redecoded into the active slot with its duration as the new
budget (provided the redecode of frame 0 succeeds, which the spec treats as
the non-error path; a failed redecode leaves the controller finished). -/
theorem reset_reinitializes (d : Decoder) (s : AnimState) (df : DecodedFrame)
    (h : d.decodeFrame 0 = some df) :
    (reset d s).fNowMS = 0 ∧
    (reset d s).fRepetitionsCompleted = 0 ∧
    isRunning (reset d s) = false ∧
    isFinished (reset d s) = false ∧
    (reset d s).fActiveFrame.fIndex = 0 ∧
    (reset d s).fActiveFrame.fBitmap = df.pixels ∧
    (reset d s).fRemainingMS = normDuration df.durationMs := by
  simp [reset, h, isRunning, isFinished]

/-- C7 witness: resetting a finished controller. -/
theorem reset_reinitializes_witness :
    (reset demoDecoder finishedState).fNowMS = 0 ∧
    (reset demoDecoder finishedState).fRepetitionsCompleted = 0 ∧
    isRunning (reset demoDecoder finishedState) = false ∧
    isFinished (reset demoDecoder finishedState) = false ∧
    (reset demoDecoder finishedState).fActiveFrame.fIndex = 0 ∧
    (reset demoDecoder finishedState).fActiveFrame.fBitmap = [0] ∧
    (reset demoDecoder finishedState).fRemainingMS = normDuration 100 :=
  reset_reinitializes demoDecoder finishedState ⟨[0], .keep, 100⟩ (by decide)

/-- C8: calling start in the FINISHED state does nothing: the state is
unchanged, the finished flag stays true, and a subsequent update advances no
frame and returns the kNotRunning sentinel. -/
theorem start_after_finished (d : Decoder) (s : AnimState) (t : Int)
    (h : s.fFinished = true) :
    start s = s ∧ isFinished (start s) = true ∧
    update d (start s) t = (start s, kNotRunning) := by
  have h1 : start s = s := by simp [start, h]
  refine ⟨h1, ?_, ?_⟩
  · simp [h1, isFinished, h]
  · simp [h1, update, h]

/-- C8 witness: starting a concrete finished state. -/
theorem start_after_finished_witness :
    start finishedState = finishedState ∧
    isFinished (start finishedState) = true ∧
    update demoDecoder (start finishedState) 1000 = (start finishedState, kNotRunning) :=
  start_after_finished demoDecoder finishedState 1000 (by decide)

/-- C10: isRunning is true exactly when the running flag is set and the
finished flag is clear (header line 67); hence whenever isFinished is true,
isRunning is false, even if the internal running flag is still set. -/
theorem isRunning_iff_and_finished_not_running (s : AnimState)
    (h : isFinished s = true) :
    (isRunning s = true ↔ (s.fRunning = true ∧ s.fFinished = false)) ∧
    isRunning s = false := by
  constructor
  · simp [isRunning]
  · simp [isFinished] at h
    simp [isRunning, h]

/-- C10 witness: a finished state whose running flag is still set. -/
theorem isRunning_iff_witness :
    (isRunning finishedState = true ↔
      (finishedState.fRunning = true ∧ finishedState.fFinished = false)) ∧
    isRunning finishedState = false :=
  isRunning_iff_and_finished_not_running finishedState (by decide)

/-- C4: advancing past a KEEP frame A into a RESTORE_PREVIOUS frame B
snapshots A into the restore slot before B overwrites the active frame, so
the pre-compositing base for the following frame C is A, not B's on-screen
result. -/
theorem restore_previous_base (d : Decoder) (s : AnimState) (dfB : DecodedFrame) (i : Nat)
    (hidx : s.fActiveFrame.fIndex = (i : Int))
    (hkeep : s.fActiveFrame.fDisposalMethod = .keep)
    (hdec : d.decodeFrame ((i + 1) % d.frameCount) = some dfB)
    (hrp : dfB.disposal = .restorePrevious)
    (hnof : ¬((i + 1) % d.frameCount = 0 ∧ s.fRepetitionCount ≠ kRepetitionCountInfinite ∧
        s.fRepetitionCount ≤ s.fRepetitionsCompleted + 1)) :
    (crossBoundary d s).fRestoreFrame = s.fActiveFrame ∧
    (crossBoundary d s).fActiveFrame.fBitmap = dfB.pixels ∧
    compositeBase ⟨(crossBoundary d s).fActiveFrame, (crossBoundary d s).fRestoreFrame⟩ =
      s.fActiveFrame := by
  have hcur : s.fActiveFrame.fIndex.toNat = i := by simp [hidx]
  by_cases hw : (i + 1) % d.frameCount = 0
  · have h2 : ¬(s.fRepetitionCount ≠ kRepetitionCountInfinite ∧
        s.fRepetitionCount ≤ s.fRepetitionsCompleted + 1) :=
      fun hc => hnof ⟨hw, hc.1, hc.2⟩
    rw [hw] at hdec
    simp [crossBoundary, nextIndex, hcur, hw, hdec, hrp, hkeep,
      applyNewFrame, retireActive, compositeBase, h2]
  · simp [crossBoundary, nextIndex, hcur, hw, hdec, hrp, hkeep,
      applyNewFrame, retireActive, compositeBase]

/-- C4 witness: concrete frames A(KEEP), B(RESTORE_PREVIOUS). -/
theorem restore_previous_base_witness :
    (crossBoundary rpDecoder stoppedState).fRestoreFrame = stoppedState.fActiveFrame ∧
    (crossBoundary rpDecoder stoppedState).fActiveFrame.fBitmap = [11] ∧
    compositeBase ⟨(crossBoundary rpDecoder stoppedState).fActiveFrame,
        (crossBoundary rpDecoder stoppedState).fRestoreFrame⟩ =
      stoppedState.fActiveFrame :=
  restore_previous_base rpDecoder stoppedState ⟨[11], .restorePrevious, 100⟩ 0
    (by decide) (by decide) (by decide) (by decide) (by decide)

/-- C2: when the decode of the next frame fails during an update call, the
controller transitions to FINISHED immediately, the active frame buffer
still holds the last successfully decoded frame, no new decode is recorded,
and update returns normally with the kNotRunning sentinel: the failure is
reported only through the finished flag (the model, being a total function,
cannot throw). -/
theorem decode_failure_finishes (d : Decoder) (s : AnimState) (msecs : Int) (i : Nat)
    (hrun : s.fRunning = true)
    (hfin : s.fFinished = false)
    (hidx : s.fActiveFrame.fIndex = (i : Int))
    (hfail : d.decodeFrame ((i + 1) % d.frameCount) = none)
    (hnof : ¬((i + 1) % d.frameCount = 0 ∧ s.fRepetitionCount ≠ kRepetitionCountInfinite ∧
        s.fRepetitionCount ≤ s.fRepetitionsCompleted + 1))
    (hcross : s.fRemainingMS - (msecs - s.fNowMS) ≤ 0) :
    (update d s msecs).2 = kNotRunning ∧
    isFinished (update d s msecs).1 = true ∧
    (update d s msecs).1.fActiveFrame = s.fActiveFrame ∧
    (update d s msecs).1.decodedLog = s.decodedLog := by
  have hcur : s.fActiveFrame.fIndex.toNat = i := by simp [hidx]
  set s1 : AnimState :=
    { s with fNowMS := msecs, fRemainingMS := s.fRemainingMS - (msecs - s.fNowMS) } with hs1
  have hcb : crossBoundary d s1 =
      { s1 with
        fRepetitionsCompleted :=
          if (i + 1) % d.frameCount = 0 then s.fRepetitionsCompleted + 1
          else s.fRepetitionsCompleted,
        fFinished := true } := by
    by_cases hw : (i + 1) % d.frameCount = 0
    · have h2 : ¬(s.fRepetitionCount ≠ kRepetitionCountInfinite ∧
          s.fRepetitionCount ≤ s.fRepetitionsCompleted + 1) :=
        fun hc => hnof ⟨hw, hc.1, hc.2⟩
      rw [hw] at hfail
      simp [crossBoundary, nextIndex, hs1, hcur, hw, hfail, h2]
    · simp [crossBoundary, nextIndex, hs1, hcur, hw, hfail]
  have hfin2 : (crossBoundary d s1).fFinished = true := by rw [hcb]
  have hloop : advanceLoop d s1 = crossBoundary d s1 := by
    unfold advanceLoop
    rw [advanceLoopFuel]
    rw [if_neg (by simp [hs1, hfin]), if_neg (by simp [hs1]; omega)]
    exact advanceLoopFuel_of_finished d _ _ hfin2
  have hupd : update d s msecs = (crossBoundary d s1, kNotRunning) := by
    unfold update
    rw [if_neg (by simp [hrun, hfin])]
    simp only []
    rw [← hs1, hloop, if_pos hfin2]
  rw [hupd, hcb]
  refine ⟨rfl, rfl, rfl, rfl⟩

/-- C2 witness: three-frame animation, decode of frame index 2 fails while
frame 1 is active; the controller finishes and frame 1 stays visible. -/
theorem decode_failure_finishes_witness :
    (update failDecoder runningState1 200).2 = kNotRunning ∧
    isFinished (update failDecoder runningState1 200).1 = true ∧
    (update failDecoder runningState1 200).1.fActiveFrame = runningState1.fActiveFrame ∧
    (update failDecoder runningState1 200).1.decodedLog = runningState1.decodedLog :=
  decode_failure_finishes failDecoder runningState1 200 1
    (by decide) (by decide) (by decide) (by decide) (by decide) (by decide)

/-! Arithmetic of the cyclic duration sums. -/

/-- Every frame's normalized duration is at least one millisecond. -/
theorem dur_pos (d : Decoder) (i : Nat) : 1 ≤ dur d i := by
  unfold dur
  cases d.decodeFrame i with
  | none => simp
  | some df => simp [normDuration]

/-- Cyclic prefix sums grow by at least one per crossed boundary. -/
theorem cyc_add_le (d : Decoder) (a : Nat) : ∀ j : Nat, cyc d a + (j : Int) ≤ cyc d (a + j) := by
  intro j
  induction j with
  | zero => simp
  | succ j ih =>
    have h1 : cyc d (a + (j + 1)) = cyc d (a + j) + dur d ((a + j) % d.frameCount) := rfl
    have h2 := dur_pos d ((a + j) % d.frameCount)
    push_cast
    omega

/-- Monotonicity of the cyclic prefix sums. -/
theorem cyc_mono (d : Decoder) {a b : Nat} (h : a ≤ b) : cyc d a ≤ cyc d b := by
  have h1 := cyc_add_le d a (b - a)
  rw [show a + (b - a) = b by omega] at h1
  omega

/-- Strict monotonicity of the cyclic prefix sums. -/
theorem cyc_lt (d : Decoder) {a b : Nat} (h : a < b) : cyc d a < cyc d b := by
  have h1 := cyc_add_le d a (b - a)
  rw [show a + (b - a) = b by omega] at h1
  omega

/-- One full loop shifts the cyclic prefix sum by the loop duration. -/
theorem cyc_add_frameCount (d : Decoder) (a : Nat) :
    cyc d (a + d.frameCount) = cyc d a + cyc d d.frameCount := by
  induction a with
  | zero => simp [cyc]
  | succ a ih =>
    rw [show a + 1 + d.frameCount = (a + d.frameCount) + 1 by omega]
    show cyc d (a + d.frameCount) + dur d ((a + d.frameCount) % d.frameCount) = _
    rw [Nat.add_mod_right, ih]
    show _ = cyc d a + dur d (a % d.frameCount) + cyc d d.frameCount
    ring

/-- m full loops sum to m times the loop duration. -/
theorem cyc_mul (d : Decoder) (m : Nat) :
    cyc d (m * d.frameCount) = (m : Int) * cyc d d.frameCount := by
  induction m with
  | zero => simp [cyc]
  | succ m ih =>
    rw [show (m + 1) * d.frameCount = m * d.frameCount + d.frameCount by ring,
      cyc_add_frameCount, ih]
    push_cast
    ring

/-- Decoding succeeds for every in-range index of a well-formed decoder. -/
theorem wf_decode (d : Decoder) (wf : WFdec d) (i : Nat) (h : i < d.frameCount) :
    ∃ df, d.decodeFrame i = some df ∧ dur d i = normDuration df.durationMs := by
  have h2 := wf.2 i h
  unfold decodeOK at h2
  cases hdf : d.decodeFrame i with
  | none => rw [hdf] at h2; simp at h2
  | some df => exact ⟨df, rfl, by unfold dur; rw [hdf]⟩

/-- The sequencer step rewritten through the stored index: advancing from
index k mod n reaches index (k+1) mod n. -/
theorem mod_succ_mod (k n : Nat) : (k % n + 1) % n = (k + 1) % n := by
  rw [Nat.add_mod k 1 n, Nat.add_mod (k % n) 1 n, Nat.mod_mod_of_dvd k dvd_rfl]

/-- Value of crossBoundary when the finish check does not fire and the
decode of the next frame succeeds. -/
theorem crossBoundary_decode (d : Decoder) (s : AnimState) (k : Nat) (df : DecodedFrame)
    (hidx : s.fActiveFrame.fIndex = ((k % d.frameCount : Nat) : Int))
    (hdf : d.decodeFrame ((k + 1) % d.frameCount) = some df)
    (hcond : ¬(((k + 1) % d.frameCount = 0) ∧ s.fRepetitionCount ≠ kRepetitionCountInfinite ∧
        s.fRepetitionCount ≤ s.fRepetitionsCompleted + 1)) :
    crossBoundary d s = { s with
      fRepetitionsCompleted :=
        if (k + 1) % d.frameCount = 0 then s.fRepetitionsCompleted + 1
        else s.fRepetitionsCompleted,
      fActiveFrame := ⟨df.pixels, (((k + 1) % d.frameCount : Nat) : Int), df.disposal⟩,
      fRestoreFrame := (applyNewFrame ⟨s.fActiveFrame, s.fRestoreFrame⟩
        ⟨df.pixels, (((k + 1) % d.frameCount : Nat) : Int), df.disposal⟩).restore,
      fRemainingMS := s.fRemainingMS + normDuration df.durationMs,
      decodedLog := s.decodedLog ++ [(k + 1) % d.frameCount] } := by
  have hcur : s.fActiveFrame.fIndex.toNat = k % d.frameCount := by
    rw [hidx]; exact Int.toNat_natCast _
  have hnext := mod_succ_mod k d.frameCount
  by_cases hw : (k + 1) % d.frameCount = 0
  · have h2 : ¬(s.fRepetitionCount ≠ kRepetitionCountInfinite ∧
        s.fRepetitionCount ≤ s.fRepetitionsCompleted + 1) := fun hc => hcond ⟨hw, hc.1, hc.2⟩
    rw [hw] at hdf
    simp [crossBoundary, nextIndex, hcur, hnext, hw, hdf, h2, applyNewFrame]
  · simp [crossBoundary, nextIndex, hcur, hnext, hw, hdf, applyNewFrame]

/-- Value of crossBoundary when the crossing wraps and the repetition limit
is reached: the controller finishes without touching the frames. -/
theorem crossBoundary_finish (d : Decoder) (s : AnimState) (k : Nat)
    (hidx : s.fActiveFrame.fIndex = ((k % d.frameCount : Nat) : Int))
    (hw : (k + 1) % d.frameCount = 0)
    (hc1 : s.fRepetitionCount ≠ kRepetitionCountInfinite)
    (hc2 : s.fRepetitionCount ≤ s.fRepetitionsCompleted + 1) :
    crossBoundary d s = { s with
      fRepetitionsCompleted := s.fRepetitionsCompleted + 1,
      fFinished := true } := by
  have hcur : s.fActiveFrame.fIndex.toNat = k % d.frameCount := by
    rw [hidx]; exact Int.toNat_natCast _
  have hnext := mod_succ_mod k d.frameCount
  simp [crossBoundary, nextIndex, hcur, hnext, hw, hc1, hc2]

/-- A non-final boundary crossing preserves the loop invariant, logging
exactly the next frame index and leaving the running flag and timestamp
untouched. -/
theorem LInv_step (d : Decoder) (r : Nat) (t : Int) (k : Nat) (s : AnimState)
    (wf : WFdec d) (h : LInv d r t k s) (hk : k + 1 < r * d.frameCount) :
    LInv d r t (k + 1) (crossBoundary d s) ∧
    (crossBoundary d s).decodedLog = s.decodedLog ++ [(k + 1) % d.frameCount] ∧
    (crossBoundary d s).fRunning = s.fRunning ∧
    (crossBoundary d s).fNowMS = s.fNowMS := by
  obtain ⟨hfin, hidx, hreps, hcnt, hrem, hklt⟩ := h
  have hn : 0 < d.frameCount := wf.1
  obtain ⟨df, hdf, hdur⟩ := wf_decode d wf ((k + 1) % d.frameCount) (Nat.mod_lt _ hn)
  have hcond : ¬(((k + 1) % d.frameCount = 0) ∧ s.fRepetitionCount ≠ kRepetitionCountInfinite ∧
      s.fRepetitionCount ≤ s.fRepetitionsCompleted + 1) := by
    rintro ⟨hw, -, hle⟩
    have hdvd : d.frameCount ∣ k + 1 := Nat.dvd_of_mod_eq_zero hw
    have hsd : (k + 1) / d.frameCount = k / d.frameCount + 1 := by
      rw [Nat.succ_div, if_pos hdvd]
    have hlt2 : (k + 1) / d.frameCount < r := (Nat.div_lt_iff_lt_mul hn).mpr hk
    rw [hcnt, hreps] at hle
    omega
  rw [crossBoundary_decode d s k df hidx hdf hcond]
  refine ⟨⟨hfin, rfl, ?_, hcnt, ?_, hk⟩, rfl, rfl, rfl⟩
  · show (if (k + 1) % d.frameCount = 0 then s.fRepetitionsCompleted + 1
      else s.fRepetitionsCompleted) = (((k + 1) / d.frameCount : Nat) : Int)
    by_cases hw : (k + 1) % d.frameCount = 0
    · have hdvd : d.frameCount ∣ k + 1 := Nat.dvd_of_mod_eq_zero hw
      have hsd : (k + 1) / d.frameCount = k / d.frameCount + 1 := by
        rw [Nat.succ_div, if_pos hdvd]
      rw [if_pos hw, hreps]
      omega
    · have hnd : ¬ d.frameCount ∣ k + 1 := fun hd => hw (Nat.mod_eq_zero_of_dvd hd)
      have hsd : (k + 1) / d.frameCount = k / d.frameCount := by
        rw [Nat.succ_div, if_neg hnd]
        omega
      rw [if_neg hw, hreps]
      omega
  · show s.fRemainingMS + normDuration df.durationMs = cyc d (k + 1 + 1) - t
    have hc2 : cyc d (k + 1 + 1) = cyc d (k + 1) + dur d ((k + 1) % d.frameCount) := rfl
    rw [hrem, hc2, hdur]
    ring

/-- The final boundary crossing of the last repetition finishes the
controller with repetitions-completed equal to the repetition count,
leaving everything else untouched. -/
theorem LInv_finish_step (d : Decoder) (r : Nat) (t : Int) (k : Nat) (s : AnimState)
    (wf : WFdec d) (h : LInv d r t k s) (hk : k + 1 = r * d.frameCount) :
    (crossBoundary d s).fFinished = true ∧
    (crossBoundary d s).fRepetitionsCompleted = (r : Int) ∧
    (crossBoundary d s).fRunning = s.fRunning ∧
    (crossBoundary d s).fNowMS = s.fNowMS := by
  obtain ⟨hfin, hidx, hreps, hcnt, hrem, hklt⟩ := h
  have hn : 0 < d.frameCount := wf.1
  have hw : (k + 1) % d.frameCount = 0 := by rw [hk]; exact Nat.mul_mod_left r _
  have hc1 : s.fRepetitionCount ≠ kRepetitionCountInfinite := by
    rw [hcnt]; unfold kRepetitionCountInfinite; omega
  have hreps1 : s.fRepetitionsCompleted + 1 = (r : Int) := by
    have hdvd : d.frameCount ∣ k + 1 := Nat.dvd_of_mod_eq_zero hw
    have hsd : (k + 1) / d.frameCount = k / d.frameCount + 1 := by
      rw [Nat.succ_div, if_pos hdvd]
    have hdr : (k + 1) / d.frameCount = r := by
      rw [hk]; exact Nat.mul_div_cancel r hn
    rw [hreps]
    omega
  have hc2 : s.fRepetitionCount ≤ s.fRepetitionsCompleted + 1 := by
    rw [hcnt]; omega
  rw [crossBoundary_finish d s k hidx hw hc1 hc2]
  exact ⟨rfl, hreps1, rfl, rfl⟩

/-- Lengths of the crossing sequences. -/
theorem crossSeq_length (d : Decoder) : ∀ j k, (crossSeq d k j).length = j := by
  intro j
  induction j with
  | zero => intro k; rfl
  | succ j ih => intro k; simp [crossSeq, ih]

/-- Entry m of the crossing sequence starting after crossing k is the frame
index (k + m + 1) mod frameCount: the crossed frames appear in order. -/
theorem crossSeq_getElem (d : Decoder) :
    ∀ j k m, m < j → (crossSeq d k j)[m]? = some ((k + m + 1) % d.frameCount) := by
  intro j
  induction j with
  | zero => intro k m hm; omega
  | succ j ih =>
    intro k m hm
    cases m with
    | zero => simp [crossSeq]
    | succ m =>
      have h1 := ih (k + 1) m (by omega)
      simp only [crossSeq, List.getElem?_cons_succ]
      rw [show k + (m + 1) + 1 = k + 1 + m + 1 by omega]
      exact h1

/-- Driving the loop at absolute time exactly r full loop durations crosses
all remaining boundaries and finishes with repetitions-completed equal to r,
given enough fuel (which advanceLoop always supplies). -/
theorem advanceLoopFuel_completes (d : Decoder) (r : Nat) (wf : WFdec d) :
    ∀ j k s fuel, r * d.frameCount - k = j →
      LInv d r ((r : Int) * cyc d d.frameCount) k s →
      (1 - s.fRemainingMS).toNat < fuel →
      (advanceLoopFuel d fuel s).fFinished = true ∧
      (advanceLoopFuel d fuel s).fRepetitionsCompleted = (r : Int) ∧
      (advanceLoopFuel d fuel s).fRunning = s.fRunning ∧
      (advanceLoopFuel d fuel s).fNowMS = s.fNowMS := by
  intro j
  induction j with
  | zero =>
    intro k s fuel hj h hfuel
    have hklt : k < r * d.frameCount := h.2.2.2.2.2
    omega
  | succ j ih =>
    intro k s fuel hj h hfuel
    have hfin : s.fFinished = false := h.1
    have hrem : s.fRemainingMS = cyc d (k + 1) - (r : Int) * cyc d d.frameCount :=
      h.2.2.2.2.1
    have hklt : k < r * d.frameCount := h.2.2.2.2.2
    have hle : cyc d (k + 1) ≤ (r : Int) * cyc d d.frameCount := by
      have h1 : cyc d (k + 1) ≤ cyc d (r * d.frameCount) := cyc_mono d (by omega)
      rw [cyc_mul] at h1
      exact h1
    have hpos : ¬ 0 < s.fRemainingMS := by omega
    cases fuel with
    | zero => omega
    | succ f =>
      have hstepeq : advanceLoopFuel d (f + 1) s = advanceLoopFuel d f (crossBoundary d s) := by
        simp only [advanceLoopFuel]
        rw [if_neg (by simp [hfin]), if_neg hpos]
      rw [hstepeq]
      by_cases hk1 : k + 1 = r * d.frameCount
      · obtain ⟨h1, h2, h3, h4⟩ := LInv_finish_step d r _ k s wf h hk1
        rw [advanceLoopFuel_of_finished d f _ h1]
        exact ⟨h1, h2, h3, h4⟩
      · have hk2 : k + 1 < r * d.frameCount := by omega
        obtain ⟨h5, hlog, hrun2, hnow2⟩ := LInv_step d r _ k s wf h hk2
        have hfuel2 : (1 - (crossBoundary d s).fRemainingMS).toNat < f := by
          have hrem2 : (crossBoundary d s).fRemainingMS =
              cyc d (k + 1 + 1) - (r : Int) * cyc d d.frameCount := h5.2.2.2.2.1
          have hdp := cyc_add_le d (k + 1) 1
          push_cast at hdp
          omega
        have h6 := ih (k + 1) (crossBoundary d s) f (by omega) h5 hfuel2
        refine ⟨h6.1, h6.2.1, ?_, ?_⟩
        · rw [h6.2.2.1, hrun2]
        · rw [h6.2.2.2, hnow2]

/-- Driving the loop at an absolute time strictly before r full loop
durations never finishes: the loop invariant is maintained at some crossing
count, and the running flag and timestamp are untouched. -/
theorem advanceLoopFuel_progress (d : Decoder) (r : Nat) (wf : WFdec d) :
    ∀ fuel t k s, LInv d r t k s → t < (r : Int) * cyc d d.frameCount →
      (1 - s.fRemainingMS).toNat < fuel →
      ∃ k2, k ≤ k2 ∧ LInv d r t k2 (advanceLoopFuel d fuel s) ∧
        (advanceLoopFuel d fuel s).fRunning = s.fRunning ∧
        (advanceLoopFuel d fuel s).fNowMS = s.fNowMS := by
  intro fuel
  induction fuel with
  | zero => intro t k s h ht hfuel; omega
  | succ f ih =>
    intro t k s h ht hfuel
    by_cases hpos : 0 < s.fRemainingMS
    · rw [advanceLoopFuel_of_pos d (f + 1) s hpos]
      exact ⟨k, le_refl k, h, rfl, rfl⟩
    · have hfin : s.fFinished = false := h.1
      have hrem : s.fRemainingMS = cyc d (k + 1) - t := h.2.2.2.2.1
      have hklt : k < r * d.frameCount := h.2.2.2.2.2
      have hk1 : k + 1 ≠ r * d.frameCount := by
        intro hk
        have h1 : cyc d (k + 1) = (r : Int) * cyc d d.frameCount := by rw [hk, cyc_mul]
        omega
      have hk2 : k + 1 < r * d.frameCount := by omega
      obtain ⟨h5, hlog, hrun2, hnow2⟩ := LInv_step d r t k s wf h hk2
      have hstepeq : advanceLoopFuel d (f + 1) s = advanceLoopFuel d f (crossBoundary d s) := by
        simp only [advanceLoopFuel]
        rw [if_neg (by simp [hfin]), if_neg hpos]
      have hfuel2 : (1 - (crossBoundary d s).fRemainingMS).toNat < f := by
        have hrem2 : (crossBoundary d s).fRemainingMS = cyc d (k + 1 + 1) - t :=
          h5.2.2.2.2.1
        have hdp := cyc_add_le d (k + 1) 1
        push_cast at hdp
        omega
      obtain ⟨k2, hk2le, hI, hrun3, hnow3⟩ := ih t (k + 1) (crossBoundary d s) h5 ht hfuel2
      rw [hstepeq]
      exact ⟨k2, by omega, hI, by rw [hrun3, hrun2], by rw [hnow3, hnow2]⟩

/-- When the target time lies within the budget of crossing k + j, the loop
crosses exactly boundaries k+1, ..., k+j, in order, decoding exactly those
frames and ending unfinished with the budget of frame (k+j) mod n. -/
theorem advanceLoopFuel_span (d : Decoder) (r : Nat) (wf : WFdec d) :
    ∀ j t k s fuel, LInv d r t k s →
      cyc d (k + j) ≤ t → t < cyc d (k + j + 1) → k + j < r * d.frameCount →
      (1 - s.fRemainingMS).toNat < fuel →
      LInv d r t (k + j) (advanceLoopFuel d fuel s) ∧
      (advanceLoopFuel d fuel s).decodedLog = s.decodedLog ++ crossSeq d k j ∧
      (advanceLoopFuel d fuel s).fRunning = s.fRunning ∧
      (advanceLoopFuel d fuel s).fNowMS = s.fNowMS := by
  intro j
  induction j with
  | zero =>
    intro t k s fuel h h1 h2 h3 hfuel
    have hrem : s.fRemainingMS = cyc d (k + 1) - t := h.2.2.2.2.1
    have hpos : 0 < s.fRemainingMS := by
      rw [show k + 0 + 1 = k + 1 by omega] at h2
      omega
    rw [advanceLoopFuel_of_pos d fuel s hpos]
    exact ⟨h, by simp [crossSeq], rfl, rfl⟩
  | succ j ih =>
    intro t k s fuel h h1 h2 h3 hfuel
    have hfin : s.fFinished = false := h.1
    have hrem : s.fRemainingMS = cyc d (k + 1) - t := h.2.2.2.2.1
    have hle : cyc d (k + 1) ≤ cyc d (k + (j + 1)) := cyc_mono d (by omega)
    have hpos : ¬ 0 < s.fRemainingMS := by omega
    cases fuel with
    | zero => omega
    | succ f =>
      have hk2 : k + 1 < r * d.frameCount := by omega
      obtain ⟨h5, hlog, hrun2, hnow2⟩ := LInv_step d r t k s wf h hk2
      have hstepeq : advanceLoopFuel d (f + 1) s = advanceLoopFuel d f (crossBoundary d s) := by
        simp only [advanceLoopFuel]
        rw [if_neg (by simp [hfin]), if_neg hpos]
      have hfuel2 : (1 - (crossBoundary d s).fRemainingMS).toNat < f := by
        have hrem2 : (crossBoundary d s).fRemainingMS = cyc d (k + 1 + 1) - t :=
          h5.2.2.2.2.1
        have hdp := cyc_add_le d (k + 1) 1
        push_cast at hdp
        omega
      have e1 : k + 1 + j = k + (j + 1) := by omega
      have ih2 := ih t (k + 1) (crossBoundary d s) f h5
        (by rw [e1]; exact h1)
        (by rw [show k + 1 + j + 1 = k + (j + 1) + 1 by omega]; exact h2)
        (by omega) hfuel2
      rw [hstepeq]
      refine ⟨?_, ?_, ?_, ?_⟩
      · rw [show k + (j + 1) = k + 1 + j by omega]
        exact ih2.1
      · rw [ih2.2.1, hlog, List.append_assoc]
        rfl
      · rw [ih2.2.2.1, hrun2]
      · rw [ih2.2.2.2, hnow2]

/-! Update-level consequences of the loop lemmas. -/

/-- An update call at exactly r full loop durations finishes the controller
with repetitions-completed equal to r and returns the kNotRunning sentinel. -/
theorem update_completes (d : Decoder) (r k : Nat) (t : Int) (s : AnimState)
    (wf : WFdec d) (h : UInv d r t k s) :
    (update d s ((r : Int) * cyc d d.frameCount)).1.fFinished = true ∧
    (update d s ((r : Int) * cyc d d.frameCount)).1.fRepetitionsCompleted = (r : Int) ∧
    (update d s ((r : Int) * cyc d d.frameCount)).2 = kNotRunning := by
  obtain ⟨hL, hrun, hnow⟩ := h
  set T : Int := (r : Int) * cyc d d.frameCount with hT
  set s1 : AnimState :=
    { s with fNowMS := T, fRemainingMS := s.fRemainingMS - (T - s.fNowMS) } with hs1
  have hL1 : LInv d r T k s1 := by
    refine ⟨hL.1, hL.2.1, hL.2.2.1, hL.2.2.2.1, ?_, hL.2.2.2.2.2⟩
    show s.fRemainingMS - (T - s.fNowMS) = cyc d (k + 1) - T
    rw [hL.2.2.2.2.1, hnow]
    ring
  have hcomp := advanceLoopFuel_completes d r wf (r * d.frameCount - k) k s1
    ((1 - s1.fRemainingMS).toNat + 1) rfl hL1 (by omega)
  have hupd : update d s T =
      (advanceLoopFuel d ((1 - s1.fRemainingMS).toNat + 1) s1, kNotRunning) := by
    unfold update
    rw [if_neg (by simp [hrun, hL.1])]
    simp only []
    rw [← hs1]
    unfold advanceLoop
    rw [if_pos hcomp.1]
  rw [hupd]
  exact ⟨hcomp.1, hcomp.2.1, rfl⟩

/-- An update call at a time strictly before r full loop durations keeps the
controller running and unfinished, at some crossing count at least k. -/
theorem update_progress (d : Decoder) (r k : Nat) (t t2 : Int) (s : AnimState)
    (wf : WFdec d) (h : UInv d r t k s)
    (ht2 : t2 < (r : Int) * cyc d d.frameCount) :
    ∃ k2, k ≤ k2 ∧ UInv d r t2 k2 (update d s t2).1 := by
  obtain ⟨hL, hrun, hnow⟩ := h
  set s1 : AnimState :=
    { s with fNowMS := t2, fRemainingMS := s.fRemainingMS - (t2 - s.fNowMS) } with hs1
  have hL1 : LInv d r t2 k s1 := by
    refine ⟨hL.1, hL.2.1, hL.2.2.1, hL.2.2.2.1, ?_, hL.2.2.2.2.2⟩
    show s.fRemainingMS - (t2 - s.fNowMS) = cyc d (k + 1) - t2
    rw [hL.2.2.2.2.1, hnow]
    ring
  obtain ⟨k2, hk2, hI, hrun2, hnow2⟩ := advanceLoopFuel_progress d r wf
    ((1 - s1.fRemainingMS).toNat + 1) t2 k s1 hL1 ht2 (by omega)
  have hupd : update d s t2 =
      (advanceLoopFuel d ((1 - s1.fRemainingMS).toNat + 1) s1,
       (advanceLoopFuel d ((1 - s1.fRemainingMS).toNat + 1) s1).fRemainingMS) := by
    unfold update
    rw [if_neg (by simp [hrun, hL.1])]
    simp only []
    rw [← hs1]
    unfold advanceLoop
    rw [if_neg (by simp [hI.1])]
  rw [hupd]
  refine ⟨k2, hk2, hI, ?_, ?_⟩
  · rw [hrun2]; exact hrun
  · rw [hnow2]

/-- Driving with any list of timestamps bounded by r full loop durations
keeps the machine either in the running invariant or finished with
repetitions-completed r. -/
theorem runUpdates_keeps (d : Decoder) (r : Nat) (wf : WFdec d) :
    ∀ ts s, (∀ t2 ∈ ts, t2 ≤ (r : Int) * cyc d d.frameCount) →
      ((∃ k t, UInv d r t k s) ∨
        (s.fFinished = true ∧ s.fRepetitionsCompleted = (r : Int))) →
      ((∃ k t, UInv d r t k (runUpdates d s ts)) ∨
        ((runUpdates d s ts).fFinished = true ∧
          (runUpdates d s ts).fRepetitionsCompleted = (r : Int))) := by
  intro ts
  induction ts with
  | nil => intro s hts h; exact h
  | cons t2 ts ih =>
    intro s hts h
    have hstep : runUpdates d s (t2 :: ts) = runUpdates d (update d s t2).1 ts := rfl
    rw [hstep]
    rcases h with ⟨k, t, hU⟩ | ⟨hfin, hreps⟩
    · by_cases ht : t2 = (r : Int) * cyc d d.frameCount
      · have hc := update_completes d r k t s wf hU
        rw [← ht] at hc
        exact ih (update d s t2).1 (fun u hu => hts u (List.mem_cons_of_mem _ hu))
          (Or.inr ⟨hc.1, hc.2.1⟩)
      · have ht2 : t2 < (r : Int) * cyc d d.frameCount :=
          lt_of_le_of_ne (hts t2 (List.mem_cons_self t2 ts)) ht
        obtain ⟨k2, -, hU2⟩ := update_progress d r k t t2 s wf hU ht2
        exact ih (update d s t2).1 (fun u hu => hts u (List.mem_cons_of_mem _ hu))
          (Or.inl ⟨k2, t2, hU2⟩)
    · have hupd : update d s t2 = (s, kNotRunning) := by
        unfold update
        rw [if_pos (by simp [hfin])]
      rw [hupd]
      exact ih s (fun u hu => hts u (List.mem_cons_of_mem _ hu)) (Or.inr ⟨hfin, hreps⟩)

/-- C1: for every frame count n at least 1 (well-formed decoder) and finite
repetition count r at least 1, driving update with timestamps bounded by
r full loop durations and ending at exactly r full loop durations leaves
isFinished true and repetitions-completed equal to r. -/
theorem finishes_after_r_loops (d : Decoder) (r : Nat) (s0 : AnimState) (ts : List Int)
    (wf : WFdec d) (hr : 1 ≤ r) (hmk : mkAnimState d = some s0)
    (hts : ∀ t ∈ ts, t ≤ (r : Int) * cyc d d.frameCount) :
    isFinished (runUpdates d (start (setRepetitionCount s0 (r : Int)))
      (ts ++ [(r : Int) * cyc d d.frameCount])) = true ∧
    (runUpdates d (start (setRepetitionCount s0 (r : Int)))
      (ts ++ [(r : Int) * cyc d d.frameCount])).fRepetitionsCompleted = (r : Int) := by
  cases hdf : d.decodeFrame 0 with
  | none =>
    unfold mkAnimState at hmk
    rw [hdf] at hmk
    simp at hmk
  | some df0 =>
    have hs0 : s0 =
        { fFinished := false, fRunning := false, fNowMS := 0,
          fRemainingMS := normDuration df0.durationMs,
          fActiveFrame := ⟨df0.pixels, 0, df0.disposal⟩,
          fRestoreFrame := ⟨[], -1, .keep⟩,
          fRepetitionCount := d.defaultRepetitionCount,
          fRepetitionsCompleted := 0, decodedLog := [0] } := by
      unfold mkAnimState at hmk
      rw [hdf] at hmk
      exact (Option.some_inj.mp hmk).symm
    have hU : UInv d r 0 0 (start (setRepetitionCount s0 (r : Int))) := by
      subst hs0
      refine ⟨⟨?_, ?_, ?_, ?_, ?_, ?_⟩, ?_, ?_⟩
      · simp [start, setRepetitionCount]
      · simp [start, setRepetitionCount]
      · simp [start, setRepetitionCount]
      · simp [start, setRepetitionCount]
      · show normDuration df0.durationMs = cyc d (0 + 1) - 0
        have hc : cyc d (0 + 1) = cyc d 0 + dur d (0 % d.frameCount) := rfl
        rw [hc]
        simp [cyc, dur, hdf]
      · exact Nat.mul_pos hr wf.1
      · simp [start, setRepetitionCount]
      · simp [start, setRepetitionCount]
    have hP := runUpdates_keeps d r wf ts (start (setRepetitionCount s0 (r : Int))) hts
      (Or.inl ⟨0, 0, hU⟩)
    have hsplit : runUpdates d (start (setRepetitionCount s0 (r : Int)))
        (ts ++ [(r : Int) * cyc d d.frameCount]) =
        (update d (runUpdates d (start (setRepetitionCount s0 (r : Int))) ts)
          ((r : Int) * cyc d d.frameCount)).1 := by
      unfold runUpdates
      rw [List.foldl_append]
      rfl
    rw [hsplit]
    rcases hP with ⟨k, t, hU2⟩ | ⟨hfin, hreps⟩
    · have hc := update_completes d r k t _ wf hU2
      exact ⟨hc.1, hc.2.1⟩
    · have hupd : update d (runUpdates d (start (setRepetitionCount s0 (r : Int))) ts)
          ((r : Int) * cyc d d.frameCount) =
          (runUpdates d (start (setRepetitionCount s0 (r : Int))) ts, kNotRunning) := by
        unfold update
        rw [if_pos (by simp [hfin])]
      rw [hupd]
      exact ⟨hfin, hreps⟩

/-- C1 witness: the worked scenario of the spec, three 100 ms frames,
repetition count 2, timestamps 0, 100, 350 and finally 600 = 2 loops. -/
theorem finishes_after_r_loops_witness :
    isFinished (runUpdates demoDecoder (start (setRepetitionCount demoS0 ((2 : Nat) : Int)))
      ([0, 100, 350] ++ [((2 : Nat) : Int) * cyc demoDecoder demoDecoder.frameCount])) = true ∧
    (runUpdates demoDecoder (start (setRepetitionCount demoS0 ((2 : Nat) : Int)))
      ([0, 100, 350] ++ [((2 : Nat) : Int) * cyc demoDecoder demoDecoder.frameCount])).fRepetitionsCompleted
      = ((2 : Nat) : Int) :=
  finishes_after_r_loops demoDecoder 2 demoS0 [0, 100, 350]
    (by unfold WFdec; decide) (by decide) (by decide) (by decide)

/-- C6: a single update call whose target time lies j frame boundaries
ahead crosses exactly j boundaries, decoding frames (k+1) mod n, ...,
(k+j) mod n in order (none skipped), and replenishes the budget with the
durations of each crossed frame, ending with the budget of frame (k+j). -/
theorem update_crosses_each_boundary (d : Decoder) (r k j : Nat) (t t2 : Int)
    (s : AnimState) (wf : WFdec d) (h : UInv d r t k s)
    (h1 : cyc d (k + j) ≤ t2) (h2 : t2 < cyc d (k + j + 1))
    (h3 : k + j < r * d.frameCount) :
    (update d s t2).1.decodedLog = s.decodedLog ++ crossSeq d k j ∧
    (update d s t2).1.decodedLog.length = s.decodedLog.length + j ∧
    (∀ m, m < j → (crossSeq d k j)[m]? = some ((k + m + 1) % d.frameCount)) ∧
    (update d s t2).1.fActiveFrame.fIndex = (((k + j) % d.frameCount : Nat) : Int) ∧
    (update d s t2).1.fRemainingMS = cyc d (k + j + 1) - t2 ∧
    (update d s t2).1.fFinished = false := by
  obtain ⟨hL, hrun, hnow⟩ := h
  set s1 : AnimState :=
    { s with fNowMS := t2, fRemainingMS := s.fRemainingMS - (t2 - s.fNowMS) } with hs1
  have hL1 : LInv d r t2 k s1 := by
    refine ⟨hL.1, hL.2.1, hL.2.2.1, hL.2.2.2.1, ?_, hL.2.2.2.2.2⟩
    show s.fRemainingMS - (t2 - s.fNowMS) = cyc d (k + 1) - t2
    rw [hL.2.2.2.2.1, hnow]
    ring
  have hsp := advanceLoopFuel_span d r wf j t2 k s1
    ((1 - s1.fRemainingMS).toNat + 1) hL1 h1 h2 h3 (by omega)
  have hupd : update d s t2 =
      (advanceLoopFuel d ((1 - s1.fRemainingMS).toNat + 1) s1,
       (advanceLoopFuel d ((1 - s1.fRemainingMS).toNat + 1) s1).fRemainingMS) := by
    unfold update
    rw [if_neg (by simp [hrun, hL.1])]
    simp only []
    rw [← hs1]
    unfold advanceLoop
    rw [if_neg (by simp [hsp.1.1])]
  rw [hupd]
  refine ⟨hsp.2.1, ?_, crossSeq_getElem d j k, hsp.1.2.1, hsp.1.2.2.2.2.1, hsp.1.1⟩
  rw [hsp.2.1]
  simp [crossSeq_length]

/-- C6 witness: from the freshly started three-frame animation, one update
at time 350 crosses three boundaries, decoding frames 1, 2, 0 in order. -/
theorem update_crosses_each_boundary_witness :
    (update demoDecoder (start (setRepetitionCount demoS0 ((2 : Nat) : Int))) 350).1.decodedLog
      = (start (setRepetitionCount demoS0 ((2 : Nat) : Int))).decodedLog ++ crossSeq demoDecoder 0 3 ∧
    (update demoDecoder (start (setRepetitionCount demoS0 ((2 : Nat) : Int))) 350).1.decodedLog.length
      = (start (setRepetitionCount demoS0 ((2 : Nat) : Int))).decodedLog.length + 3 ∧
    (∀ m, m < 3 → (crossSeq demoDecoder 0 3)[m]? = some ((0 + m + 1) % demoDecoder.frameCount)) ∧
    (update demoDecoder (start (setRepetitionCount demoS0 ((2 : Nat) : Int))) 350).1.fActiveFrame.fIndex
      = (((0 + 3) % demoDecoder.frameCount : Nat) : Int) ∧
    (update demoDecoder (start (setRepetitionCount demoS0 ((2 : Nat) : Int))) 350).1.fRemainingMS
      = cyc demoDecoder (0 + 3 + 1) - 350 ∧
    (update demoDecoder (start (setRepetitionCount demoS0 ((2 : Nat) : Int))) 350).1.fFinished = false :=
  update_crosses_each_boundary demoDecoder 2 0 3 0 350
    (start (setRepetitionCount demoS0 ((2 : Nat) : Int)))
    (by unfold WFdec; decide) (by unfold UInv LInv; decide)
    (by decide) (by decide) (by decide)

/-! Infinite repetition. -/

/-- A boundary crossing under the infinite sentinel never finishes. -/
theorem crossBoundary_inf (d : Decoder) (s : AnimState) (wf : WFdec d) (h : InfInv d s) :
    InfInv d (crossBoundary d s) := by
  obtain ⟨hfin, hcnt, i, hi, hidx⟩ := h
  have hn : 0 < d.frameCount := wf.1
  have hidx2 : s.fActiveFrame.fIndex = ((i % d.frameCount : Nat) : Int) := by
    rw [Nat.mod_eq_of_lt hi]
    exact hidx
  obtain ⟨df, hdf, -⟩ := wf_decode d wf ((i + 1) % d.frameCount) (Nat.mod_lt _ hn)
  have hcond : ¬(((i + 1) % d.frameCount = 0) ∧ s.fRepetitionCount ≠ kRepetitionCountInfinite ∧
      s.fRepetitionCount ≤ s.fRepetitionsCompleted + 1) := fun hc => hc.2.1 hcnt
  rw [crossBoundary_decode d s i df hidx2 hdf hcond]
  exact ⟨hfin, hcnt, (i + 1) % d.frameCount, Nat.mod_lt _ hn, rfl⟩

/-- The boundary loop preserves the infinite-repetition invariant. -/
theorem advanceLoopFuel_inf (d : Decoder) (wf : WFdec d) :
    ∀ fuel s, InfInv d s → InfInv d (advanceLoopFuel d fuel s) := by
  intro fuel
  induction fuel with
  | zero => intro s h; exact h
  | succ f ih =>
    intro s h
    by_cases hfin : s.fFinished = true
    · rw [advanceLoopFuel_of_finished d (f + 1) s hfin]; exact h
    · by_cases hpos : 0 < s.fRemainingMS
      · rw [advanceLoopFuel_of_pos d (f + 1) s hpos]; exact h
      · have hstepeq : advanceLoopFuel d (f + 1) s =
            advanceLoopFuel d f (crossBoundary d s) := by
          simp only [advanceLoopFuel]
          rw [if_neg hfin, if_neg hpos]
        rw [hstepeq]
        exact ih _ (crossBoundary_inf d s wf h)

/-- The first component of update is either the unchanged state or the
result of the boundary loop on the time-shifted state. -/
theorem update_fst (d : Decoder) (s : AnimState) (t2 : Int) :
    (update d s t2).1 = s ∨
    (update d s t2).1 = advanceLoop d
      { s with fNowMS := t2, fRemainingMS := s.fRemainingMS - (t2 - s.fNowMS) } := by
  unfold update
  by_cases hg : (!s.fRunning || s.fFinished) = true
  · rw [if_pos hg]; exact Or.inl rfl
  · rw [if_neg hg]
    simp only []
    split
    · exact Or.inr rfl
    · exact Or.inr rfl

/-- Time updates preserve the infinite-repetition invariant. -/
theorem update_inf (d : Decoder) (s : AnimState) (t2 : Int)
    (wf : WFdec d) (h : InfInv d s) : InfInv d (update d s t2).1 := by
  rcases update_fst d s t2 with he | he
  · rw [he]; exact h
  · rw [he]
    unfold advanceLoop
    exact advanceLoopFuel_inf d wf _ _ ⟨h.1, h.2.1, h.2.2⟩

/-- Any run of updates preserves the infinite-repetition invariant. -/
theorem runUpdates_inf (d : Decoder) (wf : WFdec d) :
    ∀ ts s, InfInv d s → InfInv d (runUpdates d s ts) := by
  intro ts
  induction ts with
  | nil => intro s h; exact h
  | cons t2 ts ih =>
    intro s h
    exact ih (update d s t2).1 (update_inf d s t2 wf h)

/-- C9: with the repetition count set to the infinite sentinel, the
animation never finishes: after any list of update calls, isFinished is
still false. -/
theorem never_finishes_when_infinite (d : Decoder) (s0 : AnimState) (ts : List Int)
    (wf : WFdec d) (hmk : mkAnimState d = some s0) :
    isFinished (runUpdates d
      (start (setRepetitionCount s0 kRepetitionCountInfinite)) ts) = false := by
  cases hdf : d.decodeFrame 0 with
  | none =>
    unfold mkAnimState at hmk
    rw [hdf] at hmk
    simp at hmk
  | some df0 =>
    have hs0 : s0 =
        { fFinished := false, fRunning := false, fNowMS := 0,
          fRemainingMS := normDuration df0.durationMs,
          fActiveFrame := ⟨df0.pixels, 0, df0.disposal⟩,
          fRestoreFrame := ⟨[], -1, .keep⟩,
          fRepetitionCount := d.defaultRepetitionCount,
          fRepetitionsCompleted := 0, decodedLog := [0] } := by
      unfold mkAnimState at hmk
      rw [hdf] at hmk
      exact (Option.some_inj.mp hmk).symm
    have hI : InfInv d (start (setRepetitionCount s0 kRepetitionCountInfinite)) := by
      subst hs0
      refine ⟨?_, ?_, 0, wf.1, ?_⟩ <;> simp [start, setRepetitionCount]
    exact (runUpdates_inf d wf ts _ hI).1

/-- C9 witness: the three-frame animation with the infinite sentinel is
still unfinished after many loops. -/
theorem never_finishes_when_infinite_witness :
    isFinished (runUpdates demoDecoder
      (start (setRepetitionCount demoS0 kRepetitionCountInfinite)) [0, 450, 10000]) = false :=
  never_finishes_when_infinite demoDecoder demoS0 [0, 450, 10000]
    (by unfold WFdec; decide) (by decide)

end SkAnim
